/-
Verification of the NameTimePeriod date-expression language and
period-matching engine (src/main.rs) against its specification.

Shallow embedding notes:
* Rust strings are modelled as `List Char`; the embedding covers the
  ASCII fragment of the Unicode semantics used by the source
  (`str::trim`, `str::to_lowercase`, the regex classes `\w`/`\s`, and
  chrono's ASCII-case-insensitive month-name scanner).
* `chrono::NaiveDate` is modelled by a `(year, month, day)` record
  together with `from_ymd_opt` (including chrono's representable year
  range), a days-since-1970 conversion used for ordering, arithmetic
  and weekdays, and the panics of `Add`/`Sub` with day durations.
* Rust `i32`/`i64` arithmetic is modelled on `Int`; the arithmetic in
  the translated code never overflows for the inputs considered, and
  the `as usize` cast in `nth_weekday_of_month` is modelled explicitly
  by its two's-complement value.
* Panics (the `.expect` in `calculate_easter`, the date-arithmetic
  overflow aborts in `get_current_period`) are modelled by `Option`:
  `none` at the outer layer means the program aborts.
-/
import Mathlib

namespace NameTimePeriod

/-! ## Calendar model (chrono::NaiveDate) -/

/-- A calendar date as carried by `chrono::NaiveDate`: a year together
with month and day numbers (months 1-12, days 1-31 for valid dates). -/
structure Date where
  year : Int
  month : Int
  day : Int
deriving DecidableEq, Repr

/-- Gregorian leap-year rule (as implemented by chrono). -/
def isLeapYear (y : Int) : Bool :=
  y % 4 == 0 && (y % 100 != 0 || y % 400 == 0)

/-- Number of days in a month of a given year. -/
def daysInMonth (y m : Int) : Int :=
  if m = 2 then (if isLeapYear y then 29 else 28)
  else if m = 4 ∨ m = 6 ∨ m = 9 ∨ m = 11 then 30
  else 31

/-- Smallest year representable by `chrono::NaiveDate`. -/
def MIN_YEAR : Int := -262143

/-- Largest year representable by `chrono::NaiveDate`. -/
def MAX_YEAR : Int := 262142

/-- `NaiveDate::from_ymd_opt`: builds a date when the triple is a valid
Gregorian date within chrono's representable year range. -/
def from_ymd_opt (y m d : Int) : Option Date :=
  if MIN_YEAR ≤ y ∧ y ≤ MAX_YEAR ∧ 1 ≤ m ∧ m ≤ 12 ∧ 1 ≤ d ∧ d ≤ daysInMonth y m
  then some ⟨y, m, d⟩ else none

/-- Days elapsed since 1970-01-01 (negative before), by the standard
civil-calendar formula; this is the quantity chrono's date ordering,
day arithmetic and weekday computation are based on. -/
def toDays (dt : Date) : Int :=
  let y := if dt.month ≤ 2 then dt.year - 1 else dt.year
  let era := y / 400
  let yoe := y - era * 400
  let mp := (dt.month + 9) % 12
  let doy := (153 * mp + 2) / 5 + dt.day - 1
  let doe := yoe * 365 + yoe / 4 - yoe / 100 + doy
  era * 146097 + doe - 719468

/-- The seven weekdays (`chrono::Weekday`). -/
inductive Weekday where
  | mon | tue | wed | thu | fri | sat | sun
deriving DecidableEq, Repr

/-- Weekday of a date: 1970-01-01 was a Thursday. -/
def Date.weekday (dt : Date) : Weekday :=
  match ((toDays dt + 3) % 7).toNat with
  | 0 => .mon | 1 => .tue | 2 => .wed | 3 => .thu
  | 4 => .fri | 5 => .sat | _ => .sun

/-! ## Easter computus (`calculate_easter`) -/

/-- The month/day pair computed by the Rust body of `calculate_easter`,
with Rust's `/` and `%` on `i32`, i.e. truncating division and
sign-following remainder (`Int.tdiv`/`Int.tmod`). -/
def easterMonthDay (year : Int) : Int × Int :=
  let a := year.tmod 19
  let b := year.tdiv 100
  let c := year.tmod 100
  let d := b.tdiv 4
  let e := b.tmod 4
  let f := (b + 8).tdiv 25
  let g := (b - f + 1).tdiv 3
  let h := (19 * a + b - d - g + 15).tmod 30
  let i := c.tdiv 4
  let k := c.tmod 4
  let l := (32 + 2 * e + 2 * i - h - k).tmod 7
  let m := (a + 11 * h + 22 * l).tdiv 451
  let month := (h + l - 7 * m + 114).tdiv 31
  let day := (h + l - 7 * m + 114).tmod 31 + 1
  (month, day)

/-- Two's-complement value of an `i32` reinterpreted `as u32`
(the casts `month as u32`, `day as u32` in `calculate_easter`). -/
def u32cast (i : Int) : Int := i % (2 ^ 32)

/-- `calculate_easter`: runs the computus and builds the date;
`none` models the panic of `.expect("Invalid Easter date calculation")`
when `from_ymd_opt` rejects the computed pair. -/
def calculate_easter (year : Int) : Option Date :=
  let md := easterMonthDay year
  from_ymd_opt year (u32cast md.1) (u32cast md.2)

/-- `Modelled from the spec:` the same computus sequence written with
the spec's stated arithmetic — floor division and non-negative
remainder (§4.1: "`/` is floor division, `%` is non-negative
remainder"); used to compare the source against the spec's words. -/
def easterSpecMonthDay (year : Int) : Int × Int :=
  let a := year % 19
  let b := year / 100
  let c := year % 100
  let d := b / 4
  let e := b % 4
  let f := (b + 8) / 25
  let g := (b - f + 1) / 3
  let h := (19 * a + b - d - g + 15) % 30
  let i := c / 4
  let k := c % 4
  let l := (32 + 2 * e + 2 * i - h - k) % 7
  let m := (a + 11 * h + 22 * l) / 451
  let month := (h + l - 7 * m + 114) / 31
  let day := (h + l - 7 * m + 114) % 31 + 1
  (month, day)

/-! ## Weekday-of-month resolvers -/

/-- The ascending list of valid dates of a month, as produced by the
iterator `(1..=31).filter_map(|day| NaiveDate::from_ymd_opt(...))`. -/
def monthDates (year month : Int) : List Date :=
  ((List.range' 1 31).map Int.ofNat).filterMap (fun day => from_ymd_opt year month day)

/-- The dates of a month with the given weekday, in ascending order
(the filtered iterator inside `nth_weekday_of_month`). -/
def weekdayDates (year month : Int) (wd : Weekday) : List Date :=
  (monthDates year month).filter (fun dt => dt.weekday == wd)

/-- Index produced by `nth.saturating_sub(1) as usize` for an `i64`
argument: saturating subtraction at `i64::MIN`, then two's-complement
reinterpretation as a 64-bit unsigned value. -/
def nthIndex (nth : Int) : Nat :=
  ((max (nth - 1) (-(2 ^ 63))) % (2 ^ 64)).toNat

/-- `nth_weekday_of_month`: the `nth` (1-indexed) date of the month
with the given weekday. -/
def nth_weekday_of_month (year month : Int) (wd : Weekday) (nth : Int) : Option Date :=
  (weekdayDates year month wd).get? (nthIndex nth)

/-- `last_weekday_of_month`: scans days 31..1 descending and returns
the first valid date with the given weekday. -/
def last_weekday_of_month (year month : Int) (wd : Weekday) : Option Date :=
  ((((List.range' 1 31).map Int.ofNat).reverse).filterMap
    (fun day => from_ymd_opt year month day)).find? (fun dt => dt.weekday == wd)

/-! ## Character classes and string helpers (ASCII fragment) -/

/-- Whitespace characters (`str::trim`, regex `\s`), ASCII fragment of
Unicode `White_Space`. -/
def isWs (c : Char) : Bool :=
  c = ' ' ∨ c = '\t' ∨ c = '\n' ∨ c = '\x0b' ∨ c = '\x0c' ∨ c = '\r'

/-- Word characters (regex `\w`), ASCII fragment: letters
(codes 65-90 and 97-122), digits (48-57) and underscore (95). -/
def isWordChar (c : Char) : Bool :=
  (97 ≤ c.toNat ∧ c.toNat ≤ 122) ∨ (65 ≤ c.toNat ∧ c.toNat ≤ 90) ∨
  (48 ≤ c.toNat ∧ c.toNat ≤ 57) ∨ c.toNat = 95

/-- ASCII digits (codes 48-57). -/
def isDigitChar (c : Char) : Bool := 48 ≤ c.toNat ∧ c.toNat ≤ 57

/-- `str::to_lowercase`, ASCII fragment (`Char.toLower` lowers A-Z). -/
def lowerList (l : List Char) : List Char := l.map Char.toLower

/-- `str::trim`: strip whitespace from both ends. -/
def trimList (l : List Char) : List Char :=
  ((l.dropWhile isWs).reverse.dropWhile isWs).reverse

/-- Strip a case-insensitive prefix (the pattern is given lowercase),
returning the remainder on success. -/
def stripPrefixCI : List Char → List Char → Option (List Char)
  | [], l => some l
  | _ :: _, [] => none
  | p :: ps, c :: cs => if c.toLower = p then stripPrefixCI ps cs else none

/-! ## chrono month-name scanning (`Month::from_str`, `%B`) -/

/-- The month-name table of chrono's scanner, each full name listed
before its three-letter abbreviation so that the scanner consumes the
long form when its suffix is present. -/
def monthTable : List (List Char × Int) :=
  [("january".data, 1), ("jan".data, 1),
   ("february".data, 2), ("feb".data, 2),
   ("march".data, 3), ("mar".data, 3),
   ("april".data, 4), ("apr".data, 4),
   ("may".data, 5),
   ("june".data, 6), ("jun".data, 6),
   ("july".data, 7), ("jul".data, 7),
   ("august".data, 8), ("aug".data, 8),
   ("september".data, 9), ("sep".data, 9),
   ("october".data, 10), ("oct".data, 10),
   ("november".data, 11), ("nov".data, 11),
   ("december".data, 12), ("dec".data, 12)]

/-- chrono's month-name scanner (`scan::short_or_long_month0`): match a
three-letter abbreviation case-insensitively, extending to the full
name when its remaining letters follow; returns the month number and
the unconsumed remainder. -/
def scanMonth (l : List Char) : Option (Int × List Char) :=
  monthTable.findSome? (fun pm => (stripPrefixCI pm.1 l).map (fun r => (pm.2, r)))

/-- `chrono::Month::from_str` followed by `number_from_month`: the
scanner must consume the whole string. -/
def monthFromStr (l : List Char) : Option Int :=
  match scanMonth l with
  | some (m, []) => some m
  | _ => none

/-! ## The ordinal-weekday regex `(?i)the\s+(\w+)\s+(\w+)\s+of\s+(\w+)` -/

/-- Consume at least one whitespace character, then the rest of the
whitespace run (the regex `\s+`; maximal because `\s` and `\w` are
disjoint). -/
def eatWs1 : List Char → Option (List Char)
  | [] => none
  | c :: r => if isWs c then some (r.dropWhile isWs) else none

/-- Capture a non-empty maximal word-character run (the regex `(\w+)`). -/
def takeWord1 (l : List Char) : Option (List Char × List Char) :=
  match l.takeWhile isWordChar with
  | [] => none
  | w => some (w, l.drop w.length)

/-- Attempt the pattern `the\s+(\w+)\s+(\w+)\s+of\s+(\w+)` anchored at
the head of the list, returning the three captures. -/
def matchAt (l : List Char) : Option (List Char × List Char × List Char) := do
  let r0 ← stripPrefixCI "the".data l
  let r1 ← eatWs1 r0
  let (w1, r2) ← takeWord1 r1
  let r3 ← eatWs1 r2
  let (w2, r4) ← takeWord1 r3
  let r5 ← eatWs1 r4
  let r6 ← stripPrefixCI "of".data r5
  let r7 ← eatWs1 r6
  let (w3, _) ← takeWord1 r7
  pure (w1, w2, w3)

/-- Leftmost regex search (`RELATIVE_DATE_REGEX.captures`): try the
pattern at each start position, left to right. -/
def regexCaptures : List Char → Option (List Char × List Char × List Char)
  | [] => none
  | c :: rest => matchAt (c :: rest) <|> regexCaptures rest

/-- The ordinal table of `parse_relative_date`. -/
def parseOrdinal (l : List Char) : Option Int :=
  if l = "first".data then some 1
  else if l = "second".data then some 2
  else if l = "third".data then some 3
  else if l = "fourth".data then some 4
  else if l = "fifth".data then some 5
  else none

/-- The weekday table of `parse_relative_date`. -/
def parseWeekdayName (l : List Char) : Option Weekday :=
  if l = "monday".data then some .mon
  else if l = "tuesday".data then some .tue
  else if l = "wednesday".data then some .wed
  else if l = "thursday".data then some .thu
  else if l = "friday".data then some .fri
  else if l = "saturday".data then some .sat
  else if l = "sunday".data then some .sun
  else none

/-- `parse_relative_date`: first regex match, then the three token
tables, then `nth_weekday_of_month`. -/
def parse_relative_date (s : List Char) (year : Int) : Option Date :=
  match regexCaptures s with
  | none => none
  | some (w1, w2, w3) =>
    match parseOrdinal (lowerList w1) with
    | none => none
    | some nth =>
      match parseWeekdayName (lowerList w2) with
      | none => none
      | some wd =>
        match monthFromStr w3 with
        | none => none
        | some month => nth_weekday_of_month year month wd nth

/-! ## Fixed-date parsing: `NaiveDate::parse_from_str(s ++ " " ++ year, "%B %d %Y")` -/

/-- Numeric value of an ASCII digit. -/
def digitVal (c : Char) : Int := (c.toNat : Int) - 48

/-- chrono `scan::number`: consume between `mn` and `mx` leading
digits (greedy, stopping at `mx`). -/
def scanNumber (mn mx : Nat) (l : List Char) : Option (Int × List Char) :=
  let ds := (l.takeWhile isDigitChar).take mx
  if ds.length < mn then none
  else some (ds.foldl (fun acc c => acc * 10 + digitVal c) 0, l.drop ds.length)

/-- chrono parsing of `%Y`: an optional sign (then unbounded digits),
otherwise at most four digits. -/
def scanYear (l : List Char) : Option (Int × List Char) :=
  match l with
  | '-' :: r => (scanNumber 1 1000000000 r).map (fun p => (-p.1, p.2))
  | '+' :: r => scanNumber 1 1000000000 r
  | _ => scanNumber 1 4 l

/-- Decimal rendering of the year appended by
`format!("{} {}", date_str, year)`. -/
def yearChars (y : Int) : List Char := (toString y).data

/-- The fixed-date fallback of `parse_flexible_date`: append the year
and parse against `"%B %d %Y"` (month name via chrono's short-or-long
scanner; whitespace skipped before numeric items; the whole input must
be consumed). -/
def fixedDateParse (s : List Char) (year : Int) : Option Date :=
  let input := s ++ (' ' :: yearChars year)
  match scanMonth input with
  | none => none
  | some (m, r1) =>
    let r2 := (r1.dropWhile isWs).dropWhile isWs
    match scanNumber 1 2 r2 with
    | none => none
    | some (d, r4) =>
      let r5 := (r4.dropWhile isWs).dropWhile isWs
      match scanYear r5 with
      | none => none
      | some (yv, r7) => if r7 = [] then from_ymd_opt yv m d else none

/-! ## `parse_flexible_date` and the period matcher -/

/-- `parse_flexible_date`. The outer `Option` models panics: `none`
means the `.expect` inside `calculate_easter` aborted the program;
`some none` means the expression did not resolve; `some (some d)` is a
resolved anchor. -/
def parse_flexible_date (s : List Char) (year : Int) : Option (Option Date) :=
  let lower := lowerList (trimList s)
  if lower = "easter".data then (calculate_easter year).map some
  else if lower = "thanksgiving".data then some (nth_weekday_of_month year 11 .thu 4)
  else if lower = "laborday".data then some (nth_weekday_of_month year 9 .mon 1)
  else if lower = "memorialday".data then some (last_weekday_of_month year 5 .mon)
  else if lower = "mlkday".data then some (nth_weekday_of_month year 1 .mon 3)
  else some ((parse_relative_date s year).orElse (fun _ => fixedDateParse s year))

/-- The `TimePeriod` configuration record (the `Comment` field is
commented out in the source). -/
structure TimePeriod where
  date : List Char
  days_before : Int
  days_after : Int

/-- Day number of the smallest representable date (`NaiveDate::MIN`). -/
def minDays : Int := toDays ⟨MIN_YEAR, 1, 1⟩

/-- Day number of the largest representable date (`NaiveDate::MAX`). -/
def maxDays : Int := toDays ⟨MAX_YEAR, 12, 31⟩

/-- One step of the matcher's `filter_map` closure on a single period:
`none` models a panic (inside `calculate_easter`, or the aborts of
`NaiveDate ± Duration` when a window endpoint is unrepresentable);
`some b` tells whether the period's window contains the query date. -/
def evalPeriod (p : TimePeriod) (d : Date) : Option Bool :=
  match parse_flexible_date p.date d.year with
  | none => none
  | some none => some false
  | some (some base) =>
    let s := toDays base - p.days_before
    let e := toDays base + p.days_after
    if s < minDays ∨ maxDays < s then none
    else if e < minDays ∨ maxDays < e then none
    else some (decide (s ≤ toDays d ∧ toDays d ≤ e))

/-- Names collected by the matcher's `filter_map(...).collect()`; the
whole collection aborts (`none`) if any period evaluation panics. -/
def matchedNames : List (String × TimePeriod) → Date → Option (List String)
  | [], _ => some []
  | (n, p) :: rest, d =>
    match evalPeriod p d, matchedNames rest d with
    | none, _ => none
    | some _, none => none
    | some true, some ms => some (n :: ms)
    | some false, some ms => some ms

/-- `get_current_period`: `"Default"` when no period matched, otherwise
the matching names joined with single spaces; `none` models a panic. -/
def get_current_period (periods : List (String × TimePeriod)) (current_date : Date) :
    Option String :=
  (matchedNames periods current_date).map
    (fun ms => if ms.isEmpty then "Default" else String.intercalate " " ms)

/-! ## Derived descriptions used in the statements -/

/-- Whether a period's window contains the query date (anchor resolved
at the query date's year): one step of the matcher, without the panic
bookkeeping. -/
def periodMatches (p : TimePeriod) (d : Date) : Bool :=
  match parse_flexible_date p.date d.year with
  | some (some base) =>
      decide (toDays base - p.days_before ≤ toDays d ∧ toDays d ≤ toDays base + p.days_after)
  | _ => false

/-- Names of the periods whose windows contain the query date, in list
order. -/
def matchingNames (ps : List (String × TimePeriod)) (d : Date) : List String :=
  (ps.filter (fun np => periodMatches np.2 d)).map (fun np => np.1)

/-- The character sequence of a list of names joined by single spaces
(what `Vec::join(" ")` produces). -/
def joinData : List String → List Char
  | [] => []
  | [a] => a.data
  | a :: rest => a.data ++ ' ' :: joinData rest

/-- Scanner for an ASCII-case-insensitive occurrence of `the` followed
by a whitespace character — the shape every match of
`RELATIVE_DATE_REGEX` must begin with. -/
def hasTheWs : List Char → Bool
  | c1 :: c2 :: c3 :: c4 :: rest =>
    (decide (c1.toLower = 't') && decide (c2.toLower = 'h') && decide (c3.toLower = 'e')
      && isWs c4) || hasTheWs (c2 :: c3 :: c4 :: rest)
  | _ => false

/-- No consecutive occurrence of the letters `t`, `h`, `e` in a
(lower-case) pattern. -/
def noTHE : List Char → Bool
  | [] => true
  | [_] => true
  | [_, _] => true
  | c1 :: c2 :: c3 :: r =>
    !(decide (c1 = 't') && decide (c2 = 'h') && decide (c3 = 'e')) && noTHE (c2 :: c3 :: r)

/-! # Theorems

## Shared arithmetic helpers and the Easter computus (claims C3, C9) -/

theorem tdiv_eq_ediv_nn {a b : Int} (ha : 0 ≤ a) (hb : 0 ≤ b) : a.tdiv b = a / b := by
  obtain ⟨m, rfl⟩ := Int.eq_ofNat_of_zero_le ha
  obtain ⟨n, rfl⟩ := Int.eq_ofNat_of_zero_le hb
  rfl

theorem tmod_eq_emod_nn {a b : Int} (ha : 0 ≤ a) (hb : 0 ≤ b) : a.tmod b = a % b := by
  obtain ⟨m, rfl⟩ := Int.eq_ofNat_of_zero_le ha
  obtain ⟨n, rfl⟩ := Int.eq_ofNat_of_zero_le hb
  rfl

theorem easterMonthDay_eq_spec {y : Int} (hy : 0 ≤ y) :
    easterMonthDay y = easterSpecMonthDay y := by
  have e1 : y.tmod 19 = y % 19 := tmod_eq_emod_nn hy (by norm_num)
  have e2 : y.tdiv 100 = y / 100 := tdiv_eq_ediv_nn hy (by norm_num)
  have e3 : y.tmod 100 = y % 100 := tmod_eq_emod_nn hy (by norm_num)
  have hb : 0 ≤ y / 100 := by omega
  have hc : 0 ≤ y % 100 := by omega
  have e4 : (y / 100).tdiv 4 = (y / 100) / 4 := tdiv_eq_ediv_nn hb (by norm_num)
  have e5 : (y / 100).tmod 4 = (y / 100) % 4 := tmod_eq_emod_nn hb (by norm_num)
  have e6 : (y / 100 + 8).tdiv 25 = (y / 100 + 8) / 25 :=
    tdiv_eq_ediv_nn (by omega) (by norm_num)
  have e7 : (y / 100 - (y / 100 + 8) / 25 + 1).tdiv 3
      = (y / 100 - (y / 100 + 8) / 25 + 1) / 3 :=
    tdiv_eq_ediv_nn (by omega) (by norm_num)
  have e8 : (19 * (y % 19) + y / 100 - (y / 100) / 4
        - (y / 100 - (y / 100 + 8) / 25 + 1) / 3 + 15).tmod 30
      = (19 * (y % 19) + y / 100 - (y / 100) / 4
        - (y / 100 - (y / 100 + 8) / 25 + 1) / 3 + 15) % 30 :=
    tmod_eq_emod_nn (by omega) (by norm_num)
  have e9 : (y % 100).tdiv 4 = (y % 100) / 4 := tdiv_eq_ediv_nn hc (by norm_num)
  have e10 : (y % 100).tmod 4 = (y % 100) % 4 := tmod_eq_emod_nn hc (by norm_num)
  set h := (19 * (y % 19) + y / 100 - (y / 100) / 4
        - (y / 100 - (y / 100 + 8) / 25 + 1) / 3 + 15) % 30 with hh
  have e11 : (32 + 2 * ((y / 100) % 4) + 2 * ((y % 100) / 4) - h
        - (y % 100) % 4).tmod 7
      = (32 + 2 * ((y / 100) % 4) + 2 * ((y % 100) / 4) - h
        - (y % 100) % 4) % 7 :=
    tmod_eq_emod_nn (by omega) (by norm_num)
  set l := (32 + 2 * ((y / 100) % 4) + 2 * ((y % 100) / 4) - h
        - (y % 100) % 4) % 7 with hl
  have e12 : (y % 19 + 11 * h + 22 * l).tdiv 451
      = (y % 19 + 11 * h + 22 * l) / 451 :=
    tdiv_eq_ediv_nn (by omega) (by norm_num)
  set m := (y % 19 + 11 * h + 22 * l) / 451 with hm
  have e13 : (h + l - 7 * m + 114).tdiv 31 = (h + l - 7 * m + 114) / 31 :=
    tdiv_eq_ediv_nn (by omega) (by norm_num)
  have e14 : (h + l - 7 * m + 114).tmod 31 = (h + l - 7 * m + 114) % 31 :=
    tmod_eq_emod_nn (by omega) (by norm_num)
  simp only [easterMonthDay, easterSpecMonthDay, e1, e2, e3, e4, e5, e6, e7, e8, e9, e10,
    e11, e12, e13, e14]

theorem easterSpec_bounds (y : Int) :
    (3 ≤ (easterSpecMonthDay y).1 ∧ (easterSpecMonthDay y).1 ≤ 4) ∧
    (1 ≤ (easterSpecMonthDay y).2 ∧ (easterSpecMonthDay y).2 ≤ 31) ∧
    ((easterSpecMonthDay y).1 = 4 → (easterSpecMonthDay y).2 ≤ 26) := by
  simp only [easterSpecMonthDay]
  omega

theorem calculate_easter_eq_spec {y : Int} (h0 : 0 ≤ y) (h1 : y ≤ 262142) :
    calculate_easter y = some ⟨y, (easterSpecMonthDay y).1, (easterSpecMonthDay y).2⟩ := by
  obtain ⟨⟨hm3, hm4⟩, ⟨hd1, hd31⟩, hfeb⟩ := easterSpec_bounds y
  have heq := easterMonthDay_eq_spec h0
  have hu1 : u32cast (easterSpecMonthDay y).1 = (easterSpecMonthDay y).1 := by
    unfold u32cast; omega
  have hu2 : u32cast (easterSpecMonthDay y).2 = (easterSpecMonthDay y).2 := by
    unfold u32cast; omega
  simp only [calculate_easter, heq, hu1, hu2]
  unfold from_ymd_opt
  rw [if_pos]
  refine ⟨by unfold MIN_YEAR; omega, by unfold MAX_YEAR; omega, by omega, by omega, by omega, ?_⟩
  unfold daysInMonth
  rcases (by omega : (easterSpecMonthDay y).1 = 3 ∨ (easterSpecMonthDay y).1 = 4) with h | h <;>
    rw [h] <;> norm_num <;> omega

/-- C3 counterexample: at year `-1` the code's truncating arithmetic
produces the valid date March 20, which differs from the spec
formula's floor-division result April 18, so the claim fails as
stated for a year whose result is a valid Gregorian date. -/
theorem C3_counterexample :
    calculate_easter (-1) = some ⟨-1, 3, 20⟩ ∧
    easterSpecMonthDay (-1) = (4, 18) ∧
    easterMonthDay (-1) ≠ easterSpecMonthDay (-1) := by decide

/-- C3 (amended): for every year `0 ≤ year ≤ 262142` (chrono's
representable range), `calculate_easter year` returns exactly the
calendar date `(year, month, day)` computed by the Meeus/Jones/Butcher
sequence of the spec with floor division and non-negative remainders. -/
theorem C3_easter_bit_exact {y : Int} (h0 : 0 ≤ y) (h1 : y ≤ 262142) :
    calculate_easter y = some ⟨y, (easterSpecMonthDay y).1, (easterSpecMonthDay y).2⟩ :=
  calculate_easter_eq_spec h0 h1

/-- C3 witness: the amended theorem applied at year 2025. -/
theorem C3_witness :
    calculate_easter 2025 = some ⟨2025, (easterSpecMonthDay 2025).1, (easterSpecMonthDay 2025).2⟩ :=
  C3_easter_bit_exact (by norm_num) (by norm_num)

/-- C9 (amended): for every year `0 ≤ year ≤ 262142`, resolving the
anchor expression `easter` does not panic: it resolves to the computed
Easter date. -/
theorem C9_easter_no_panic {y : Int} (h0 : 0 ≤ y) (h1 : y ≤ 262142) :
    parse_flexible_date "easter".data y
      = some (some ⟨y, (easterSpecMonthDay y).1, (easterSpecMonthDay y).2⟩) := by
  simp only [parse_flexible_date]
  rw [show lowerList (trimList "easter".data) = "easter".data from by decide]
  rw [if_pos rfl]
  rw [calculate_easter_eq_spec h0 h1]
  rfl

/-- C9 witness: the amended theorem applied at year 2025. -/
theorem C9_witness :
    parse_flexible_date "easter".data 2025
      = some (some ⟨2025, (easterSpecMonthDay 2025).1, (easterSpecMonthDay 2025).2⟩) :=
  C9_easter_no_panic (by norm_num) (by norm_num)

/-- C9 counterexample: at year `-2` the computus yields February 31,
`from_ymd_opt` rejects it, and the `.expect` panics — resolving
`easter` crashes the program instead of skipping the period. -/
theorem C9_counterexample :
    parse_flexible_date "easter".data (-2) = none ∧ easterMonthDay (-2) = (2, 31) := by
  decide

/-! ## Weekday-of-month theorems (claims C7, C8) -/

theorem from_ymd_opt_some {y m d : Int} {dt : Date} (h : from_ymd_opt y m d = some dt) :
    dt = ⟨y, m, d⟩ ∧ 1 ≤ d ∧ d ≤ 31 := by
  unfold from_ymd_opt at h
  split at h
  · rename_i hc
    refine ⟨by injection h with h2; exact h2.symm, hc.2.2.2.2.1, ?_⟩
    have : daysInMonth y m ≤ 31 := by
      unfold daysInMonth
      split
      · split <;> omega
      · split <;> omega
    omega
  · exact absurd h (by simp)

theorem monthDates_pairwise (y m : Int) :
    (monthDates y m).Pairwise (fun a b => a.day < b.day) := by
  unfold monthDates
  have hp : (((List.range' 1 31).map Int.ofNat)).Pairwise (· < ·) :=
    (List.pairwise_map).mpr
      ((List.pairwise_lt_range' 1 31).imp (by intro a b h; exact Int.ofNat_lt.mpr h))
  refine List.Pairwise.filterMap (fun day => from_ymd_opt y m day) ?_ hp
  intro a b hab x hx x' hx'
  simp only [Option.mem_def] at hx hx'
  obtain ⟨rfl, _, _⟩ := from_ymd_opt_some hx
  obtain ⟨rfl, _, _⟩ := from_ymd_opt_some hx'
  simpa using hab

theorem weekdayDates_pairwise (y m : Int) (wd : Weekday) :
    (weekdayDates y m wd).Pairwise (fun a b => a.day < b.day) :=
  (monthDates_pairwise y m).filter _

theorem weekdayDates_mem {y m : Int} {wd : Weekday} {dt : Date}
    (h : dt ∈ weekdayDates y m wd) :
    dt.weekday = wd ∧ dt.year = y ∧ dt.month = m ∧ 1 ≤ dt.day ∧ dt.day ≤ 31 := by
  unfold weekdayDates at h
  have h1 := List.mem_filter.mp h
  have h2 : dt.weekday = wd := by
    have := h1.2
    simpa using this
  refine ⟨h2, ?_⟩
  have h3 := h1.1
  unfold monthDates at h3
  obtain ⟨day, _, hd⟩ := List.mem_filterMap.mp h3
  obtain ⟨rfl, hd1, hd2⟩ := from_ymd_opt_some hd
  exact ⟨rfl, rfl, hd1, hd2⟩

theorem filter_length_of_pairwise_get? :
    ∀ (L : List Date) (k : Nat) (d : Date), L.Pairwise (fun a b => a.day < b.day) →
      L.get? k = some d →
      (L.filter (fun e => decide (e.day < d.day))).length = k := by
  intro L
  induction L with
  | nil => intro k d _ h; simp at h
  | cons a t ih =>
    intro k d hpw hget
    match k with
    | 0 =>
      simp only [List.get?] at hget
      injection hget with hget
      subst hget
      have : ∀ e ∈ t, ¬ (e.day < a.day) := by
        intro e he
        have := (List.pairwise_cons.mp hpw).1 e he
        omega
      rw [List.filter_cons]
      simp only [decide_eq_true_eq]
      rw [if_neg (by omega)]
      rw [List.filter_eq_nil_iff.mpr (by intro e he; simp only [decide_eq_true_eq]; exact this e he)]
      rfl
    | k + 1 =>
      simp only [List.get?] at hget
      have hd : d ∈ t := List.get?_mem hget
      have hlt : a.day < d.day := (List.pairwise_cons.mp hpw).1 d hd
      rw [List.filter_cons]
      rw [if_pos (by simpa using hlt)]
      simp only [List.length_cons]
      rw [ih k d (List.pairwise_cons.mp hpw).2 hget]

theorem weekdayDates_length_le (y m : Int) (wd : Weekday) :
    (weekdayDates y m wd).length ≤ 31 := by
  unfold weekdayDates monthDates
  calc (((List.range' 1 31).map Int.ofNat).filterMap
          (fun day => from_ymd_opt y m day) |>.filter (fun dt => dt.weekday == wd)).length
      ≤ (((List.range' 1 31).map Int.ofNat).filterMap (fun day => from_ymd_opt y m day)).length :=
        List.length_filter_le _ _
    _ ≤ ((List.range' 1 31).map Int.ofNat).length := List.length_filterMap_le _ _
    _ = 31 := by simp

/-- C7: for `n` in 1..5, if `nth_weekday_of_month` resolves to a date
`d`, then `d` has the requested weekday, month (and year), and exactly
`n - 1` earlier days of that month have that weekday. -/
theorem C7_nth_weekday_sound {y m : Int} {wd : Weekday} {n : Int} {d : Date}
    (h1 : 1 ≤ n) (h5 : n ≤ 5) (h : nth_weekday_of_month y m wd n = some d) :
    d.weekday = wd ∧ d.month = m ∧ d.year = y ∧
    (((weekdayDates y m wd).filter (fun e => decide (e.day < d.day))).length : Int) = n - 1 := by
  unfold nth_weekday_of_month at h
  have hidx : nthIndex n = (n - 1).toNat := by unfold nthIndex; omega
  rw [hidx] at h
  have hmem : d ∈ weekdayDates y m wd := List.get?_mem h
  obtain ⟨hwd, hyr, hmo, _, _⟩ := weekdayDates_mem hmem
  refine ⟨hwd, hmo, hyr, ?_⟩
  rw [filter_length_of_pairwise_get? _ _ _ (weekdayDates_pairwise y m wd) h]
  omega

/-- C7 witness: applied to the 2nd Sunday of May 2025 (May 11). -/
theorem C7_witness :
    (⟨2025, 5, 11⟩ : Date).weekday = .sun ∧ (⟨2025, 5, 11⟩ : Date).month = 5 ∧
    (⟨2025, 5, 11⟩ : Date).year = 2025 ∧
    (((weekdayDates 2025 5 .sun).filter
        (fun e => decide (e.day < (⟨2025, 5, 11⟩ : Date).day))).length : Int) = 2 - 1 :=
  C7_nth_weekday_sound (by norm_num) (by norm_num) (by decide)

/-- C8: `nth_weekday_of_month` returns absent whenever `n < 1`
(including 0 and negative `n`) or the month has fewer than `n` days
with the given weekday (`n` ranges over `i64`, hence the upper bound). -/
theorem C8_nth_weekday_absent {y m : Int} {wd : Weekday} {n : Int}
    (hrange : n < 2 ^ 63)
    (h : n < 1 ∨ ((weekdayDates y m wd).length : Int) < n) :
    nth_weekday_of_month y m wd n = none := by
  unfold nth_weekday_of_month
  apply List.get?_eq_none.mpr
  have hle := weekdayDates_length_le y m wd
  rcases h with h | h
  · have : 2 ^ 63 ≤ nthIndex n := by unfold nthIndex; omega
    omega
  · have h1 : 1 ≤ n := by omega
    have : nthIndex n = (n - 1).toNat := by unfold nthIndex; omega
    omega

/-- C8 witness: February 2025 has only four Fridays; `n = 0` and a
negative `n` are also rejected. -/
theorem C8_witness :
    nth_weekday_of_month 2025 2 .fri 5 = none ∧ nth_weekday_of_month 2025 5 .sun 0 = none ∧
    nth_weekday_of_month 2025 5 .sun (-7) = none :=
  ⟨C8_nth_weekday_absent (by norm_num) (Or.inr (by decide)),
   C8_nth_weekday_absent (by norm_num) (Or.inl (by norm_num)),
   C8_nth_weekday_absent (by norm_num) (Or.inl (by norm_num))⟩

/-! ## The anchor-date dispatch table (claim C5) -/

/-- C5: after trimming and lowercasing, the expressions `easter`,
`thanksgiving`, `laborday`, `memorialday` and `mlkday` resolve
respectively to the Easter computus result, the 4th Thursday of
November, the 1st Monday of September, the last Monday of May, and
the 3rd Monday of January of the query year. -/
theorem C5_named_holidays (s : List Char) (y : Int) :
    (lowerList (trimList s) = "easter".data →
      parse_flexible_date s y = (calculate_easter y).map some) ∧
    (lowerList (trimList s) = "thanksgiving".data →
      parse_flexible_date s y = some (nth_weekday_of_month y 11 .thu 4)) ∧
    (lowerList (trimList s) = "laborday".data →
      parse_flexible_date s y = some (nth_weekday_of_month y 9 .mon 1)) ∧
    (lowerList (trimList s) = "memorialday".data →
      parse_flexible_date s y = some (last_weekday_of_month y 5 .mon)) ∧
    (lowerList (trimList s) = "mlkday".data →
      parse_flexible_date s y = some (nth_weekday_of_month y 1 .mon 3)) := by
  refine ⟨?_, ?_, ?_, ?_, ?_⟩ <;> intro h <;> simp only [parse_flexible_date, h] <;> simp

/-- C5 witness: the five dispatch rules applied to concrete spellings
with mixed case and surrounding whitespace. -/
theorem C5_witness :
    parse_flexible_date " Easter ".data 2025 = (calculate_easter 2025).map some ∧
    parse_flexible_date "ThanksGiving".data 2025 = some (nth_weekday_of_month 2025 11 .thu 4) ∧
    parse_flexible_date "LABORDAY".data 2025 = some (nth_weekday_of_month 2025 9 .mon 1) ∧
    parse_flexible_date "memorialday".data 2025 = some (last_weekday_of_month 2025 5 .mon) ∧
    parse_flexible_date "MlkDay".data 2025 = some (nth_weekday_of_month 2025 1 .mon 3) :=
  ⟨(C5_named_holidays _ _).1 (by decide),
   (C5_named_holidays _ _).2.1 (by decide),
   (C5_named_holidays _ _).2.2.1 (by decide),
   (C5_named_holidays _ _).2.2.2.1 (by decide),
   (C5_named_holidays _ _).2.2.2.2 (by decide)⟩

/-! ## The period matcher (claims C1, C2, C4) -/

theorem evalPeriod_some {p : TimePeriod} {d : Date} {b : Bool}
    (h : evalPeriod p d = some b) : b = periodMatches p d := by
  unfold evalPeriod at h
  unfold periodMatches
  cases hp : parse_flexible_date p.date d.year with
  | none => rw [hp] at h; simp at h
  | some o =>
    rw [hp] at h
    cases o with
    | none =>
      injection h with h
      simp [← h]
    | some base =>
      replace h : (if toDays base - p.days_before < minDays ∨ maxDays < toDays base - p.days_before
          then none
          else if toDays base + p.days_after < minDays ∨ maxDays < toDays base + p.days_after
            then none
            else some (decide (toDays base - p.days_before ≤ toDays d ∧
              toDays d ≤ toDays base + p.days_after))) = some b := h
      show b = decide (toDays base - p.days_before ≤ toDays d ∧
        toDays d ≤ toDays base + p.days_after)
      split at h
      · simp at h
      · split at h
        · simp at h
        · injection h with h
          exact h.symm

theorem matchedNames_some {ps : List (String × TimePeriod)} {d : Date} {ms : List String}
    (h : matchedNames ps d = some ms) : ms = matchingNames ps d := by
  induction ps generalizing ms with
  | nil =>
    unfold matchedNames at h
    injection h with h
    subst h
    rfl
  | cons np rest ih =>
    obtain ⟨n, p⟩ := np
    unfold matchedNames at h
    unfold matchingNames
    rw [List.filter_cons]
    cases he : evalPeriod p d with
    | none => rw [he] at h; exact absurd h (by simp)
    | some b =>
      rw [he] at h
      cases hr : matchedNames rest d with
      | none => rw [hr] at h; cases b <;> exact absurd h (by simp)
      | some ms' =>
        rw [hr] at h
        have hb := evalPeriod_some he
        have hms' := ih hr
        cases b with
        | true =>
          injection h with h
          subst h
          rw [← hb]
          simp only [if_pos]
          rw [List.map_cons, hms']
          rfl
        | false =>
          injection h with h
          subst h
          rw [← hb]
          simp only [Bool.false_eq_true, if_neg]
          rw [hms']
          rfl

theorem intercalate_go_data : ∀ (as : List String) (acc : String),
    (String.intercalate.go acc " " as).data = joinData (acc :: as) := by
  intro as
  induction as with
  | nil => intro acc; rfl
  | cons b bs ih =>
    intro acc
    show (String.intercalate.go (acc ++ " " ++ b) " " bs).data = joinData (acc :: b :: bs)
    rw [ih]
    cases bs with
    | nil =>
      show (acc ++ " " ++ b).data = acc.data ++ ' ' :: b.data
      rw [String.data_append, String.data_append]
      simp
    | cons c cs =>
      show (acc ++ " " ++ b).data ++ ' ' :: joinData (c :: cs)
          = acc.data ++ ' ' :: (b.data ++ ' ' :: joinData (c :: cs))
      rw [String.data_append, String.data_append]
      simp

theorem intercalate_space_data (l : List String) (hl : l ≠ []) :
    (String.intercalate " " l).data = joinData l := by
  cases l with
  | nil => exact absurd rfl hl
  | cons a as => exact intercalate_go_data as a

/-- C1 (amended): when two or more periods' windows contain the query
date, the matcher returns the names of all matching periods in list
order joined by single spaces — not the single earliest name. -/
theorem C1_ties_join_all {ps : List (String × TimePeriod)} {d : Date} {out : String}
    (h : get_current_period ps d = some out)
    (h2 : 2 ≤ (matchingNames ps d).length) :
    out = String.intercalate " " (matchingNames ps d) := by
  unfold get_current_period at h
  cases hm : matchedNames ps d with
  | none => rw [hm] at h; exact absurd h (by simp)
  | some ms =>
    rw [hm] at h
    simp only [Option.map_some'] at h
    injection h with h
    have hms := matchedNames_some hm
    cases ms with
    | nil =>
      rw [← hms] at h2
      simp at h2
    | cons a t =>
      simp only [List.isEmpty_cons, if_neg] at h
      rw [← hms]
      simp only [Bool.false_eq_true, if_false] at h
      exact h.symm

/-- C1 witness: on April 20 2025 both the `easter` period and the
`the third sunday of april` period match. -/
theorem C1_witness :
    get_current_period
      [("A", ⟨"easter".data, 1, 1⟩), ("B", ⟨"the third sunday of april".data, 0, 0⟩)]
      ⟨2025, 4, 20⟩ = some (String.intercalate " "
        (matchingNames
          [("A", ⟨"easter".data, 1, 1⟩), ("B", ⟨"the third sunday of april".data, 0, 0⟩)]
          ⟨2025, 4, 20⟩)) := by
  have := @C1_ties_join_all
    [("A", ⟨"easter".data, 1, 1⟩), ("B", ⟨"the third sunday of april".data, 0, 0⟩)]
    ⟨2025, 4, 20⟩ "A B" (by decide) (by decide)
  rw [← this]
  decide

/-- C1 counterexample: with two overlapping periods the matcher
returns `"A B"`, not the name of the earliest period `"A"`: the code
joins all matching names instead of taking the first (its own test
`test_get_current_period_multiple_matches` asserts this joining). -/
theorem C1_counterexample :
    get_current_period
      [("A", ⟨"easter".data, 1, 1⟩), ("B", ⟨"the third sunday of april".data, 0, 0⟩)]
      ⟨2025, 4, 20⟩ = some "A B" ∧
    ("A B" : String) ≠ "A" := by
  constructor
  · decide
  · decide

theorem matchingNames_mem {ps : List (String × TimePeriod)} {d : Date} {nm : String}
    (h : nm ∈ matchingNames ps d) : ∃ np ∈ ps, np.1 = nm := by
  unfold matchingNames at h
  obtain ⟨np, hnp, rfl⟩ := List.mem_map.mp h
  exact ⟨np, (List.mem_filter.mp hnp).1, rfl⟩

/-- C2 (amended): when the matcher terminates normally and no
configured period is named `""` or `"Default"`, it returns `"Default"`
iff no period matches; otherwise it returns the space-joined names of
all matching periods (a configured name when exactly one matches), and
the output is never empty. -/
theorem C2_default_iff {ps : List (String × TimePeriod)} {d : Date} {out : String}
    (h : get_current_period ps d = some out)
    (hne : ∀ np ∈ ps, np.1 ≠ "" ∧ np.1 ≠ "Default") :
    (out = "Default" ↔ matchingNames ps d = []) ∧
    out ≠ "" ∧
    (matchingNames ps d ≠ [] → out = String.intercalate " " (matchingNames ps d)) := by
  unfold get_current_period at h
  cases hm : matchedNames ps d with
  | none => rw [hm] at h; exact absurd h (by simp)
  | some ms =>
    rw [hm] at h
    simp only [Option.map_some'] at h
    injection h with h
    have hms := matchedNames_some hm
    cases ms with
    | nil =>
      simp only [List.isEmpty_nil, if_pos] at h
      rw [← hms]
      subst h
      refine ⟨by simp, by decide, by simp⟩
    | cons a t =>
      simp only [List.isEmpty_cons, Bool.false_eq_true, if_false] at h
      rw [← hms]
      have hmema : a ∈ matchingNames ps d := by rw [← hms]; exact List.mem_cons_self a t
      obtain ⟨npa, hnpa, hpa⟩ := matchingNames_mem hmema
      have ha := hne npa hnpa
      rw [hpa] at ha
      have hdata : out.data = joinData (a :: t) := by
        rw [← h]
        exact intercalate_space_data _ (by simp)
      have hane : a.data ≠ [] := by
        intro hc
        exact ha.1 (String.ext hc)
      constructor
      · constructor
        · intro hd
          exfalso
          rw [hd] at hdata
          cases t with
          | nil =>
            simp only [joinData] at hdata
            exact ha.2 (String.ext hdata.symm)
          | cons b bs =>
            have hsp : ' ' ∈ ("Default" : String).data := by
              rw [hdata]
              simp only [joinData]
              cases hx : a.data with
              | nil => exact absurd hx hane
              | cons x xs => simp
            revert hsp
            decide
        · intro hc
          simp at hc
      · constructor
        · intro hc
          rw [hc] at hdata
          replace hdata : ([] : List Char) = joinData (a :: t) := hdata
          cases t with
          | nil =>
            simp only [joinData] at hdata
            exact hane hdata.symm
          | cons b bs =>
            simp only [joinData] at hdata
            cases hx : a.data with
            | nil => exact absurd hx hane
            | cons x xs => rw [hx] at hdata; simp at hdata
        · intro _
          exact h.symm

/-- C2 witness: the amended theorem applied to a one-period
configuration on a non-matching date. -/
theorem C2_witness :
    (("Default" : String) = "Default" ↔
      matchingNames [("MyPeriod", ⟨"February 6".data, 2, 2⟩)] ⟨2025, 3, 1⟩ = []) ∧
    ("Default" : String) ≠ "" ∧
    (matchingNames [("MyPeriod", ⟨"February 6".data, 2, 2⟩)] ⟨2025, 3, 1⟩ ≠ [] →
      ("Default" : String) = String.intercalate " "
        (matchingNames [("MyPeriod", ⟨"February 6".data, 2, 2⟩)] ⟨2025, 3, 1⟩)) :=
  C2_default_iff (by decide) (by decide)

/-- C2 counterexample: with two matching periods the output `"A B"`
is neither a configured period name nor `"Default"`, refuting
"otherwise it returns some configured period name". -/
theorem C2_counterexample :
    get_current_period
      [("A", ⟨"easter".data, 1, 1⟩), ("B", ⟨"the third sunday of april".data, 0, 0⟩)]
      ⟨2025, 4, 20⟩ = some "A B" ∧
    ("A B" : String) ≠ "A" ∧ ("A B" : String) ≠ "B" ∧ ("A B" : String) ≠ "Default" := by
  refine ⟨by decide, by decide, by decide, by decide⟩

/-- C4 (amended): for a period whose anchor expression resolves at
the query date's year to `A` with offsets `b, a ≥ 0` (windows inside
the representable range), the single-period matcher returns the
period's name for every date in `[A - b, A + a]` (both endpoints
included) and `"Default"` at `A - b - 1` and `A + a + 1`. -/
theorem C4_window_inclusive (name : String) (p : TimePeriod) (d A : Date)
    (hp : parse_flexible_date p.date d.year = some (some A))
    (hb : 0 ≤ p.days_before) (ha : 0 ≤ p.days_after)
    (hlo : minDays ≤ toDays A - p.days_before)
    (hhi : toDays A + p.days_after ≤ maxDays) :
    ((toDays A - p.days_before ≤ toDays d ∧ toDays d ≤ toDays A + p.days_after) →
      get_current_period [(name, p)] d = some name) ∧
    ((toDays d = toDays A - p.days_before - 1 ∨ toDays d = toDays A + p.days_after + 1) →
      get_current_period [(name, p)] d = some "Default") := by
  have hs1 : ¬ (toDays A - p.days_before < minDays ∨ maxDays < toDays A - p.days_before) := by
    omega
  have hs2 : ¬ (toDays A + p.days_after < minDays ∨ maxDays < toDays A + p.days_after) := by
    omega
  constructor
  · intro hin
    unfold get_current_period matchedNames evalPeriod
    rw [hp]
    simp only [if_neg hs1, if_neg hs2, decide_eq_true hin]
    rfl
  · intro hout
    unfold get_current_period matchedNames evalPeriod
    rw [hp]
    have : decide (toDays A - p.days_before ≤ toDays d ∧ toDays d ≤ toDays A + p.days_after)
        = false := by
      apply decide_eq_false
      omega
    simp only [if_neg hs1, if_neg hs2, this]
    rfl

/-- C4 witness: the easter period with `DaysBefore = DaysAfter = 1`
matches April 21 2025 (inside) and misses April 22 2025 (one past the
end). -/
theorem C4_witness :
    get_current_period [("X", ⟨"easter".data, 1, 1⟩)] ⟨2025, 4, 21⟩ = some "X" ∧
    get_current_period [("X", ⟨"easter".data, 1, 1⟩)] ⟨2025, 4, 22⟩ = some "Default" :=
  ⟨(C4_window_inclusive "X" ⟨"easter".data, 1, 1⟩ ⟨2025, 4, 21⟩ ⟨2025, 4, 20⟩
      (by decide) (by norm_num) (by norm_num) (by decide) (by decide)).1 (by decide),
   (C4_window_inclusive "X" ⟨"easter".data, 1, 1⟩ ⟨2025, 4, 22⟩ ⟨2025, 4, 20⟩
      (by decide) (by norm_num) (by norm_num) (by decide) (by decide)).2 (by decide)⟩

/-- C4 counterexample: the anchor `the fifth wednesday of december`
resolves for 2025 to December 31 with `DaysAfter = 2`, and January 1
2026 lies inside `[A, A + 2]`, yet the matcher misses it because it
re-resolves the anchor in the query date's year (2026, giving
December 30 2026): the claim fails for windows straddling a year
boundary. -/
theorem C4_counterexample :
    parse_flexible_date "the fifth wednesday of december".data 2025
      = some (some ⟨2025, 12, 31⟩) ∧
    toDays ⟨2025, 12, 31⟩ - 0 ≤ toDays ⟨2026, 1, 1⟩ ∧
    toDays ⟨2026, 1, 1⟩ ≤ toDays ⟨2025, 12, 31⟩ + 2 ∧
    get_current_period [("P", ⟨"the fifth wednesday of december".data, 0, 2⟩)] ⟨2026, 1, 1⟩
      = some "Default" := by
  refine ⟨by decide, by decide, by decide, by decide⟩

/-! ## The ordinal-weekday rule and its fall-through (claims C6, C10) -/

theorem stripPrefixCI_cons {p : Char} {ps l r : List Char}
    (h : stripPrefixCI (p :: ps) l = some r) :
    ∃ c l', l = c :: l' ∧ c.toLower = p ∧ stripPrefixCI ps l' = some r := by
  cases l with
  | nil => exact absurd h (by simp [stripPrefixCI])
  | cons c l' =>
    unfold stripPrefixCI at h
    split at h
    · exact ⟨c, l', rfl, by assumption, h⟩
    · exact absurd h (by simp)

theorem stripPrefixCI_append {pat l r : List Char}
    (h : stripPrefixCI pat l = some r) :
    ∃ tok, l = tok ++ r ∧ lowerList tok = pat := by
  induction pat generalizing l with
  | nil =>
    unfold stripPrefixCI at h
    injection h with h
    exact ⟨[], by simp [h], rfl⟩
  | cons p ps ih =>
    obtain ⟨c, l', rfl, hc, h'⟩ := stripPrefixCI_cons h
    obtain ⟨tok, rfl, htok⟩ := ih h'
    exact ⟨c :: tok, rfl, by simp [lowerList] at htok ⊢; exact ⟨hc, htok⟩⟩

theorem eatWs1_shape {l r : List Char} (h : eatWs1 l = some r) :
    ∃ c l', l = c :: l' ∧ isWs c = true ∧ r = l'.dropWhile isWs := by
  cases l with
  | nil => exact absurd h (by simp [eatWs1])
  | cons c l' =>
    rw [show eatWs1 (c :: l') = if isWs c then some (l'.dropWhile isWs) else none from rfl] at h
    split at h
    · injection h with h; exact ⟨c, l', rfl, by assumption, h.symm⟩
    · exact absurd h (by simp)

theorem matchAt_shape {l : List Char} {caps : List Char × List Char × List Char}
    (h : matchAt l = some caps) :
    ∃ c1 c2 c3 c4 r, l = c1 :: c2 :: c3 :: c4 :: r ∧
      c1.toLower = 't' ∧ c2.toLower = 'h' ∧ c3.toLower = 'e' ∧ isWs c4 = true := by
  unfold matchAt at h
  obtain ⟨r0, h0, h⟩ := Option.bind_eq_some.mp h
  obtain ⟨r1, h1, h⟩ := Option.bind_eq_some.mp h
  rw [show "the".data = ['t', 'h', 'e'] from rfl] at h0
  obtain ⟨c1, l1, rfl, hc1, h0⟩ := stripPrefixCI_cons h0
  obtain ⟨c2, l2, rfl, hc2, h0⟩ := stripPrefixCI_cons h0
  obtain ⟨c3, l3, rfl, hc3, h0⟩ := stripPrefixCI_cons h0
  have hr0 : r0 = l3 := by
    unfold stripPrefixCI at h0
    injection h0 with h0
    exact h0.symm
  subst hr0
  obtain ⟨c4, l4, rfl, hc4, _⟩ := eatWs1_shape h1
  exact ⟨c1, c2, c3, c4, l4, rfl, hc1, hc2, hc3, hc4⟩

theorem hasTheWs_cons_of {l : List Char} (c : Char) (h : hasTheWs l = true) :
    hasTheWs (c :: l) = true := by
  match l with
  | [] => exact absurd h (by simp [hasTheWs])
  | [a] => exact absurd h (by simp [hasTheWs])
  | [a, b] => exact absurd h (by simp [hasTheWs])
  | a :: b :: c' :: r =>
    unfold hasTheWs
    rw [h]
    simp

theorem hasTheWs_window {c1 c2 c3 c4 : Char} (r : List Char)
    (h1 : c1.toLower = 't') (h2 : c2.toLower = 'h') (h3 : c3.toLower = 'e')
    (h4 : isWs c4 = true) :
    hasTheWs (c1 :: c2 :: c3 :: c4 :: r) = true := by
  unfold hasTheWs
  rw [h1, h2, h3, h4]
  simp

theorem regexCaptures_hasTheWs {s : List Char} {caps : List Char × List Char × List Char}
    (h : regexCaptures s = some caps) : hasTheWs s = true := by
  induction s with
  | nil => exact absurd h (by simp [regexCaptures])
  | cons c rest ih =>
    unfold regexCaptures at h
    cases hm : matchAt (c :: rest) with
    | some caps' =>
      obtain ⟨c1, c2, c3, c4, r, heq, h1, h2, h3, h4⟩ := matchAt_shape hm
      rw [heq]
      exact hasTheWs_window r h1 h2 h3 h4
    | none =>
      rw [hm] at h
      simp only [Option.none_orElse] at h
      exact hasTheWs_cons_of c (ih h)

theorem hasTheWs_skip1 {c : Char} (l : List Char) (hc : c.toLower ≠ 't') :
    hasTheWs (c :: l) = hasTheWs l := by
  match l with
  | [] => rfl
  | [a] => rfl
  | [a, b] => rfl
  | a :: b :: c' :: r =>
    conv_lhs => rw [hasTheWs]
    simp [hc]

theorem hasTheWs_skip2 {c1 c2 : Char} (l : List Char) (hc : c2.toLower ≠ 'h') :
    hasTheWs (c1 :: c2 :: l) = hasTheWs (c2 :: l) := by
  match l with
  | [] => rfl
  | [a] => rfl
  | a :: b :: r =>
    conv_lhs => rw [hasTheWs]
    simp [hc]

theorem hasTheWs_skip3 {c1 c2 c3 : Char} (l : List Char) (hc : c3.toLower ≠ 'e') :
    hasTheWs (c1 :: c2 :: c3 :: l) = hasTheWs (c2 :: c3 :: l) := by
  match l with
  | [] => rfl
  | a :: r =>
    conv_lhs => rw [hasTheWs]
    simp [hc]

theorem hasTheWs_tFree {l : List Char} (h : ∀ c ∈ l, c.toLower ≠ 't') :
    hasTheWs l = false := by
  induction l with
  | nil => rfl
  | cons c r ih =>
    rw [hasTheWs_skip1 r (h c (List.mem_cons_self c r))]
    exact ih (fun x hx => h x (List.mem_cons_of_mem c hx))

theorem noTHE_tail {c : Char} {l : List Char} (h : noTHE (c :: l) = true) :
    noTHE l = true := by
  match l with
  | [] => rfl
  | [x] => rfl
  | x :: y :: r =>
    rw [noTHE] at h
    simp only [Bool.and_eq_true] at h
    exact h.2

theorem noTHE_the {x : Char} {r : List Char} (h : noTHE ('t' :: 'h' :: x :: r) = true) :
    x ≠ 'e' := by
  rw [noTHE] at h
  simp only [Bool.and_eq_true, Bool.not_eq_eq_eq_not, Bool.not_true] at h
  have h1 := h.1
  simp at h1
  exact h1

theorem keyLemma : ∀ (tok rest : List Char), noTHE (lowerList tok) = true →
    (∀ c ∈ rest, c.toLower ≠ 't' ∧ c.toLower ≠ 'h' ∧ c.toLower ≠ 'e') →
    hasTheWs (tok ++ rest) = false := by
  intro tok
  induction tok with
  | nil =>
    intro rest _ hrest
    exact hasTheWs_tFree (fun c hc => (hrest c hc).1)
  | cons a tok' ih =>
    intro rest hpat hrest
    rw [List.cons_append]
    by_cases ha : a.toLower = 't'
    case neg =>
      rw [hasTheWs_skip1 _ ha]
      exact ih rest (noTHE_tail hpat) hrest
    case pos =>
      cases tok' with
      | nil =>
        cases rest with
        | nil => rfl
        | cons c2 rest' =>
          simp only [List.nil_append]
          rw [hasTheWs_skip2 _ (hrest c2 (List.mem_cons_self _ _)).2.1]
          exact hasTheWs_tFree (fun c hc => (hrest c hc).1)
      | cons b tok'' =>
        by_cases hb : b.toLower = 'h'
        case neg =>
          rw [List.cons_append, hasTheWs_skip2 _ hb, ← List.cons_append]
          exact ih rest (noTHE_tail hpat) hrest
        case pos =>
          cases tok'' with
          | nil =>
            cases rest with
            | nil => rfl
            | cons c3 rest' =>
              simp only [List.cons_append, List.nil_append]
              rw [hasTheWs_skip3 _ (hrest c3 (List.mem_cons_self _ _)).2.2]
              rw [hasTheWs_skip1 _ (by rw [hb]; decide)]
              exact hasTheWs_tFree (fun c hc => (hrest c hc).1)
          | cons c tok''' =>
            have hc : c.toLower ≠ 'e' := by
              have hpat' : noTHE ('t' :: 'h' :: c.toLower :: lowerList tok''') = true := by
                have : lowerList (a :: b :: c :: tok''')
                    = a.toLower :: b.toLower :: c.toLower :: lowerList tok''' := rfl
                rw [this, ha, hb] at hpat
                exact hpat
              exact noTHE_the hpat'
            rw [List.cons_append, List.cons_append, hasTheWs_skip3 _ hc,
              ← List.cons_append, ← List.cons_append]
            exact ih rest (noTHE_tail hpat) hrest

theorem ws_safe {c : Char} (h : isWs c = true) :
    c.toLower ≠ 't' ∧ c.toLower ≠ 'h' ∧ c.toLower ≠ 'e' := by
  simp only [isWs, decide_eq_true_eq, Bool.or_eq_true] at h
  rcases h with h | h | h | h | h | h <;> subst h <;> refine ⟨by decide, by decide, by decide⟩

theorem digit_safe {c : Char} (h : isDigitChar c = true) :
    c.toLower ≠ 't' ∧ c.toLower ≠ 'h' ∧ c.toLower ≠ 'e' := by
  simp only [isDigitChar, Bool.and_eq_true, decide_eq_true_eq] at h
  have hl : c.toLower = c := by
    unfold Char.toLower
    rw [if_neg (by omega)]
  rw [hl]
  refine ⟨?_, ?_, ?_⟩ <;> intro hc <;> subst hc <;> exact absurd h (by decide)

theorem trim_decomp (s : List Char) : ∃ A B, s = A ++ trimList s ++ B ∧
    (∀ c ∈ A, isWs c = true) ∧ (∀ c ∈ B, isWs c = true) := by
  have h1 : s = s.takeWhile isWs ++ s.dropWhile isWs :=
    (List.takeWhile_append_dropWhile isWs s).symm
  have h2 : s.dropWhile isWs
      = trimList s ++ ((s.dropWhile isWs).reverse.takeWhile isWs).reverse := by
    unfold trimList
    calc s.dropWhile isWs = (s.dropWhile isWs).reverse.reverse :=
          (List.reverse_reverse _).symm
      _ = ((s.dropWhile isWs).reverse.takeWhile isWs
            ++ (s.dropWhile isWs).reverse.dropWhile isWs).reverse := by
          rw [List.takeWhile_append_dropWhile]
      _ = ((s.dropWhile isWs).reverse.dropWhile isWs).reverse
            ++ ((s.dropWhile isWs).reverse.takeWhile isWs).reverse := by
          rw [List.reverse_append]
  refine ⟨s.takeWhile isWs, ((s.dropWhile isWs).reverse.takeWhile isWs).reverse, ?_, ?_, ?_⟩
  · rw [List.append_assoc, ← h2]
    exact h1
  · exact fun c hc => List.mem_takeWhile_imp hc
  · intro c hc
    rw [List.mem_reverse] at hc
    exact List.mem_takeWhile_imp hc

theorem wsPrefix_hasTheWs {A : List Char} (X : List Char) (hA : ∀ c ∈ A, isWs c = true) :
    hasTheWs (A ++ X) = hasTheWs X := by
  induction A with
  | nil => rfl
  | cons a A' ih =>
    rw [List.cons_append, hasTheWs_skip1 _ (ws_safe (hA a (List.mem_cons_self _ _))).1]
    exact ih (fun c hc => hA c (List.mem_cons_of_mem _ hc))

theorem hasTheWs_trim_ne {s name : List Char} (hth : hasTheWs s = true)
    (hname : noTHE name = true) : lowerList (trimList s) ≠ name := by
  intro heq
  obtain ⟨A, B, hs, hA, hB⟩ := trim_decomp s
  have : hasTheWs s = false := by
    rw [hs, List.append_assoc, wsPrefix_hasTheWs _ hA]
    apply keyLemma
    · rw [heq]; exact hname
    · exact fun c hc => ws_safe (hB c hc)
  rw [this] at hth
  exact absurd hth (by simp)

theorem hasTheWs_append_mono : ∀ (s x : List Char), hasTheWs s = true →
    hasTheWs (s ++ x) = true
  | [], _, h => absurd h (by simp [hasTheWs])
  | [_], _, h => absurd h (by simp [hasTheWs])
  | [_, _], _, h => absurd h (by simp [hasTheWs])
  | [_, _, _], _, h => absurd h (by simp [hasTheWs])
  | a :: b :: c :: d :: r, x, h => by
    rw [hasTheWs] at h
    rw [show ((a :: b :: c :: d :: r) ++ x : List Char) = a :: b :: c :: d :: (r ++ x) from rfl,
      hasTheWs]
    rcases Bool.or_eq_true_iff.mp h with hw | hrec
    · rw [hw]
      simp
    · have := hasTheWs_append_mono (b :: c :: d :: r) x hrec
      rw [show ((b :: c :: d :: r) ++ x : List Char) = b :: c :: d :: (r ++ x) from rfl] at this
      rw [this]
      simp

theorem monthTable_noTHE : ∀ pm ∈ monthTable, noTHE pm.1 = true := by decide

theorem scanMonth_append {l r : List Char} {m : Int} (h : scanMonth l = some (m, r)) :
    ∃ tok, l = tok ++ r ∧ noTHE (lowerList tok) = true := by
  unfold scanMonth at h
  obtain ⟨pm, hmem, hpm⟩ := List.exists_of_findSome?_eq_some h
  rw [Option.map_eq_some'] at hpm
  obtain ⟨r', hr', heq⟩ := hpm
  injection heq with h1 h2
  subst h2
  obtain ⟨tok, rfl, htok⟩ := stripPrefixCI_append hr'
  exact ⟨tok, rfl, by rw [htok]; exact monthTable_noTHE pm hmem⟩

theorem scanNumber_append {mn mx : Nat} {l r : List Char} {v : Int}
    (h : scanNumber mn mx l = some (v, r)) :
    ∃ ds, l = ds ++ r ∧ ∀ c ∈ ds, isDigitChar c = true := by
  unfold scanNumber at h
  replace h : (if (List.take mx (List.takeWhile isDigitChar l)).length < mn then none
      else some ((List.take mx (List.takeWhile isDigitChar l)).foldl
        (fun acc c => acc * 10 + digitVal c) 0,
        List.drop (List.take mx (List.takeWhile isDigitChar l)).length l)) = some (v, r) := h
  split at h
  · exact absurd h (by simp)
  · injection h with h
    injection h with h1 h2
    refine ⟨(l.takeWhile isDigitChar).take mx, ?_, ?_⟩
    · have hpre : (l.takeWhile isDigitChar).take mx <+: l :=
        (List.take_prefix mx _).trans (List.takeWhile_prefix _)
      rw [← h2]
      exact (List.prefix_iff_eq_append.mp hpre).symm
    · intro c hc
      exact List.mem_takeWhile_imp (List.take_subset _ _ hc)

theorem scanYear_append {l r : List Char} {v : Int} (h : scanYear l = some (v, r)) :
    ∃ pre, l = pre ++ r ∧ ∀ c ∈ pre, (isDigitChar c = true ∨ c = '-' ∨ c = '+') := by
  unfold scanYear at h
  split at h
  · rename_i r'
    rw [Option.map_eq_some'] at h
    obtain ⟨⟨v', r''⟩, h1, h2⟩ := h
    injection h2 with h2a h2b
    subst h2b
    obtain ⟨ds, rfl, hds⟩ := scanNumber_append h1
    refine ⟨'-' :: ds, by simp, ?_⟩
    intro c hc
    rcases List.mem_cons.mp hc with rfl | hc
    · exact Or.inr (Or.inl rfl)
    · exact Or.inl (hds c hc)
  · rename_i r'
    obtain ⟨ds, rfl, hds⟩ := scanNumber_append h
    refine ⟨'+' :: ds, by simp, ?_⟩
    intro c hc
    rcases List.mem_cons.mp hc with rfl | hc
    · exact Or.inr (Or.inr rfl)
    · exact Or.inl (hds c hc)
  · obtain ⟨ds, rfl, hds⟩ := scanNumber_append h
    exact ⟨ds, rfl, fun c hc => Or.inl (hds c hc)⟩

theorem sign_safe {c : Char} (h : c = '-' ∨ c = '+') :
    c.toLower ≠ 't' ∧ c.toLower ≠ 'h' ∧ c.toLower ≠ 'e' := by
  rcases h with rfl | rfl <;> refine ⟨by decide, by decide, by decide⟩

theorem dropWhile_ws_decomp (l : List Char) :
    l = l.takeWhile isWs ++ l.dropWhile isWs ∧ ∀ c ∈ l.takeWhile isWs, isWs c = true :=
  ⟨(List.takeWhile_append_dropWhile isWs l).symm,
   fun _ hc => List.mem_takeWhile_imp hc⟩

theorem fixedDateParse_not_theWs {s : List Char} {y : Int} {d : Date}
    (h : fixedDateParse s y = some d) : hasTheWs s = false := by
  unfold fixedDateParse at h
  replace h : (match scanMonth (s ++ ' ' :: yearChars y) with
    | none => none
    | some (m, r1) =>
      match scanNumber 1 2 ((r1.dropWhile isWs).dropWhile isWs) with
      | none => none
      | some (dd, r4) =>
        match scanYear ((r4.dropWhile isWs).dropWhile isWs) with
        | none => none
        | some (yv, r7) => if r7 = [] then from_ymd_opt yv m dd else none) = some d := h
  cases hm : scanMonth (s ++ ' ' :: yearChars y) with
  | none => rw [hm] at h; exact absurd h (by simp)
  | some p1 =>
    obtain ⟨mo, r1⟩ := p1
    rw [hm] at h
    replace h : (match scanNumber 1 2 ((r1.dropWhile isWs).dropWhile isWs) with
      | none => none
      | some (dd, r4) =>
        match scanYear ((r4.dropWhile isWs).dropWhile isWs) with
        | none => none
        | some (yv, r7) => if r7 = [] then from_ymd_opt yv mo dd else none) = some d := h
    cases hn : scanNumber 1 2 ((r1.dropWhile isWs).dropWhile isWs) with
    | none => rw [hn] at h; exact absurd h (by simp)
    | some p2 =>
      obtain ⟨dd, r4⟩ := p2
      rw [hn] at h
      replace h : (match scanYear ((r4.dropWhile isWs).dropWhile isWs) with
        | none => none
        | some (yv, r7) => if r7 = [] then from_ymd_opt yv mo dd else none) = some d := h
      cases hy : scanYear ((r4.dropWhile isWs).dropWhile isWs) with
      | none => rw [hy] at h; exact absurd h (by simp)
      | some p3 =>
        obtain ⟨yv, r7⟩ := p3
        rw [hy] at h
        replace h : (if r7 = [] then from_ymd_opt yv mo dd else none) = some d := h
        have hr7 : r7 = [] := by
          by_contra hc
          rw [if_neg hc] at h
          exact absurd h (by simp)
        subst hr7
        -- decompose the input into the month token and safe characters
        obtain ⟨tok, hins, htok⟩ := scanMonth_append hm
        obtain ⟨h11, h12⟩ := dropWhile_ws_decomp r1
        obtain ⟨h21, h22⟩ := dropWhile_ws_decomp (r1.dropWhile isWs)
        obtain ⟨ds, hds, hdsd⟩ := scanNumber_append hn
        obtain ⟨h31, h32⟩ := dropWhile_ws_decomp r4
        obtain ⟨h41, h42⟩ := dropWhile_ws_decomp (r4.dropWhile isWs)
        obtain ⟨pre, hpre, hpred⟩ := scanYear_append hy
        rw [List.append_nil] at hpre
        have hinput := hins
        rw [h11, h21, hds, h31, h41, hpre] at hinput
        have hfalse : hasTheWs (s ++ ' ' :: yearChars y) = false := by
          rw [hinput]
          apply keyLemma _ _ htok
          intro c hc
          simp only [List.mem_append] at hc
          rcases hc with hc | hc | hc | hc | hc | hc
          · exact ws_safe (h12 c hc)
          · exact ws_safe (h22 c hc)
          · exact digit_safe (hdsd c hc)
          · exact ws_safe (h32 c hc)
          · exact ws_safe (h42 c hc)
          · rcases hpred c hc with hd | hs
            · exact digit_safe hd
            · exact sign_safe hs
        by_contra hc
        rw [Bool.not_eq_false] at hc
        rw [hasTheWs_append_mono _ _ hc] at hfalse
        exact absurd hfalse (by simp)

theorem parse_flexible_skip_holidays {s : List Char} {y : Int}
    (hth : hasTheWs s = true) :
    parse_flexible_date s y
      = some ((parse_relative_date s y).orElse (fun _ => fixedDateParse s y)) := by
  unfold parse_flexible_date
  rw [if_neg (hasTheWs_trim_ne hth (by decide)),
    if_neg (hasTheWs_trim_ne hth (by decide)),
    if_neg (hasTheWs_trim_ne hth (by decide)),
    if_neg (hasTheWs_trim_ne hth (by decide)),
    if_neg (hasTheWs_trim_ne hth (by decide))]

theorem fixedDateParse_none_of_regex {s : List Char} {y : Int}
    {caps : List Char × List Char × List Char}
    (hre : regexCaptures s = some caps) : fixedDateParse s y = none := by
  cases hf : fixedDateParse s y with
  | none => rfl
  | some d =>
    have h1 := fixedDateParse_not_theWs hf
    have h2 := regexCaptures_hasTheWs hre
    rw [h1] at h2
    exact absurd h2 (by simp)

/-- C6 (amended): for every expression whose first regex match has a
sub-token the code's recognizers reject (ordinal not among
first..fifth, unrecognized weekday name, or month name not recognized
— where month recognition also accepts three-letter abbreviations),
the parser returns absent: the ordinal-weekday rule fails as a whole
and, although evaluation falls through to the fixed-date rule, that
rule can never succeed on a string containing the ordinal pattern; in
particular `parse("The sixth Sunday of May", 2025)` is absent. -/
theorem C6_invalid_token_absent :
    (∀ (s : List Char) (y : Int) (w1 w2 w3 : List Char),
      regexCaptures s = some (w1, w2, w3) →
      (parseOrdinal (lowerList w1) = none ∨ parseWeekdayName (lowerList w2) = none ∨
        monthFromStr w3 = none) →
      parse_flexible_date s y = some none) ∧
    parse_flexible_date "The sixth Sunday of May".data 2025 = some none := by
  constructor
  · intro s y w1 w2 w3 hre hbad
    have hth := regexCaptures_hasTheWs hre
    rw [parse_flexible_skip_holidays hth]
    have hrel : parse_relative_date s y = none := by
      unfold parse_relative_date
      rw [hre]
      show (match parseOrdinal (lowerList w1) with
        | none => none
        | some nth =>
          match parseWeekdayName (lowerList w2) with
          | none => none
          | some wd =>
            match monthFromStr w3 with
            | none => none
            | some month => nth_weekday_of_month y month wd nth) = none
      rcases hbad with hb | hb | hb
      · rw [hb]
      · cases ho : parseOrdinal (lowerList w1) with
        | none => rfl
        | some nth => rw [hb]
      · cases ho : parseOrdinal (lowerList w1) with
        | none => rfl
        | some nth =>
          cases hw : parseWeekdayName (lowerList w2) with
          | none => rfl
          | some wd => rw [hb]
    rw [hrel, fixedDateParse_none_of_regex hre]
    rfl
  · decide

/-- C6 witness: `foo` is not a month under any reading, so the whole
expression is absent. -/
theorem C6_witness :
    parse_flexible_date "the first monday of foo".data 2025 = some none :=
  C6_invalid_token_absent.1 "the first monday of foo".data 2025
    "first".data "monday".data "foo".data (by decide) (Or.inr (Or.inr (by decide)))

/-- C6 counterexample: `jan` is not a full English month name — the
spec requires `january`..`december` and §9 states abbreviations are
unsupported — yet `chrono::Month::from_str` accepts three-letter
abbreviations, so the expression resolves instead of being absent. -/
theorem C6_counterexample :
    parse_flexible_date "the first monday of jan".data 2025 = some (some ⟨2025, 1, 6⟩) ∧
    some (some (⟨2025, 1, 6⟩ : Date)) ≠ (some none : Option (Option Date)) := by
  refine ⟨by decide, by decide⟩

/-- C10 (amended): the ordinal-weekday rule matches the pattern
anywhere inside the expression, but only its FIRST (leftmost) match is
used: whenever the first match's ordinal, weekday and month tokens are
all recognized, the parser returns exactly the corresponding
`nth_weekday_of_month` result, regardless of surrounding text. -/
theorem C10_first_match_resolves :
    ∀ (s : List Char) (y : Int) (w1 w2 w3 : List Char) (n : Int) (wd : Weekday) (mo : Int),
      regexCaptures s = some (w1, w2, w3) →
      parseOrdinal (lowerList w1) = some n →
      parseWeekdayName (lowerList w2) = some wd →
      monthFromStr w3 = some mo →
      parse_flexible_date s y = some (nth_weekday_of_month y mo wd n) := by
  intro s y w1 w2 w3 n wd mo hre ho hw hm
  have hth := regexCaptures_hasTheWs hre
  rw [parse_flexible_skip_holidays hth]
  have hrel : parse_relative_date s y = nth_weekday_of_month y mo wd n := by
    unfold parse_relative_date
    rw [hre]
    show (match parseOrdinal (lowerList w1) with
      | none => none
      | some nth =>
        match parseWeekdayName (lowerList w2) with
        | none => none
        | some wd =>
          match monthFromStr w3 with
          | none => none
          | some month => nth_weekday_of_month y month wd nth)
      = nth_weekday_of_month y mo wd n
    rw [ho, hw, hm]
  rw [hrel]
  cases hn : nth_weekday_of_month y mo wd n with
  | some d => rfl
  | none =>
    rw [fixedDateParse_none_of_regex hre]
    rfl

/-- C10 witness: leading `xx` and trailing `yy` text does not prevent
resolution of the embedded phrase. -/
theorem C10_witness :
    parse_flexible_date "xx The First Monday of January yy".data 2025
      = some (nth_weekday_of_month 2025 1 .mon 1) :=
  C10_first_match_resolves "xx The First Monday of January yy".data 2025
    "First".data "Monday".data "January".data 1 .mon 1
    (by decide) (by decide) (by decide) (by decide)

/-- C10 counterexample: the string contains the valid substring
`the first monday of january` (which alone resolves to January 6
2025), but the regex's leftmost match is the earlier `the a b of c`,
whose tokens are invalid, so the parser returns absent — "for every
string containing a valid pattern substring" fails. -/
theorem C10_counterexample :
    "the a b of c the first monday of january".data
      = "the a b of c ".data ++ "the first monday of january".data ∧
    parse_flexible_date "the first monday of january".data 2025
      = some (some ⟨2025, 1, 6⟩) ∧
    parse_flexible_date "the a b of c the first monday of january".data 2025 = some none := by
  refine ⟨by decide, by decide, by decide⟩

end NameTimePeriod
